import Mathlib

/-!
Verification of the `consume` Go package: a shallow embedding of its
consumers (sinks), map/filter chains and pagination, with theorems
settling the specification claims.

Modelling conventions:
* A Go slice header is `GoSlice`: a backing array `arr` (whose length is
  the capacity) together with the exposed length `len`.  The exposed
  contents are `arr.take len`.  `reflect.MakeSlice` fills new cells with
  the zero value, modelled by `default`.
* The library is single threaded, so each consumer is modelled as a
  state together with pure transition functions.  `Consume` panics when
  `CanConsume` is false; a panicking call is modelled by `Option`
  (`none` = panic, the receiver left as it was when the check fired).
* Go `int` values that can be negative (slice window bounds) are `Int`;
  quantities that the code keeps non-negative are `Nat`.
-/

namespace Consume


/-- A Go slice header: backing array `arr` (capacity = `arr.length`) and
exposed length `len`.  The visible contents are `arr.take len`. -/
structure GoSlice (α : Type) where
  arr : List α
  len : Nat
  deriving DecidableEq

/-- The elements visible through the slice header. -/
def GoSlice.exposed (s : GoSlice α) : List α := s.arr.take s.len

/-- `truncateTo` from the source: re-slices to `newLength` when it fits the
capacity, otherwise allocates a fresh zeroed backing array of exactly the
new length and copies the exposed elements into it. -/
def truncateTo [Inhabited α] (s : GoSlice α) (n : Nat) : GoSlice α :=
  if n ≤ s.arr.length then { s with len := n }
  else ⟨s.exposed ++ List.replicate (n - s.exposed.length) default, n⟩

/-- `ensureEmptyWithCapacity` from the source: make a fresh empty slice of
the requested capacity if the current one is too small, else truncate the
existing one to length 0. -/
def ensureEmptyWithCapacity [Inhabited α] (s : GoSlice α) (c : Nat) :
    GoSlice α :=
  if s.arr.length < c then ⟨List.replicate c default, 0⟩ else truncateTo s 0

/-- State of `appendSaveMemoryConsumer`: the owned slice header, the
logical length (`length` field in the source) and the `finalized` flag. -/
structure AppendSaveMemoryConsumer (α : Type) where
  buffer : GoSlice α
  length : Nat
  finalized : Bool
  deriving DecidableEq

/-- `AppendToSaveMemory` from the source: record the current length as the
logical length, then pre-extend the slice to its capacity (at least 4). -/
def appendToSaveMemory [Inhabited α] (s : GoSlice α) :
    AppendSaveMemoryConsumer α :=
  { buffer := if s.arr.length < 4 then truncateTo s 4
              else truncateTo s s.arr.length
    length := s.len
    finalized := false }

/-- `appendSaveMemoryConsumer.CanConsume`. -/
def AppendSaveMemoryConsumer.canConsume (a : AppendSaveMemoryConsumer α) :
    Bool :=
  !a.finalized

/-- `appendSaveMemoryConsumer.Consume`: panic (modelled as a no-op, see the
`canConsume` guard used by callers) when finalized; otherwise double the
exposed length when the logical length has caught up with it, then write
into the next unused slot. -/
def AppendSaveMemoryConsumer.consume [Inhabited α]
    (a : AppendSaveMemoryConsumer α) (v : α) : AppendSaveMemoryConsumer α :=
  if a.finalized then a
  else
    let b := if a.length = a.buffer.len then truncateTo a.buffer (2 * a.length)
             else a.buffer
    { a with buffer := ⟨b.arr.set a.length v, b.len⟩, length := a.length + 1 }

/-- `appendSaveMemoryConsumer.Finalize`: idempotent; truncates the slice to
the logical length. -/
def AppendSaveMemoryConsumer.finalize [Inhabited α]
    (a : AppendSaveMemoryConsumer α) : AppendSaveMemoryConsumer α :=
  if a.finalized then a
  else { a with buffer := truncateTo a.buffer a.length, finalized := true }

/-- Invariant of a live `appendSaveMemoryConsumer` whose consumed values so
far are `done`. -/
def AsmInv [Inhabited α] (a : AppendSaveMemoryConsumer α) (done : List α) :
    Prop :=
  a.finalized = false ∧
  a.buffer.arr.take a.length = done ∧
  a.length ≤ a.buffer.len ∧
  a.buffer.len = a.buffer.arr.length ∧
  0 < a.buffer.len

/-- The complete `AppendToSaveMemory` scenario: wrap an initially empty
slice (backing array `arr0`, any capacity), consume `vs`, finalize. -/
def asmRun [Inhabited α] (arr0 vs : List α) : AppendSaveMemoryConsumer α :=
  (vs.foldl AppendSaveMemoryConsumer.consume
    (appendToSaveMemory ⟨arr0, 0⟩)).finalize

/-- State of `pageConsumer`.  In the source the embedded `Consumer` is
`Slice(cf, pageNo*size, (pageNo+1)*size+1)` over the `AppendToSaveMemory`
consumer `cf` sharing the same slice; the composite is flattened here into
one record: `asm` is `cf`'s state, `start`/`stop`/`idx` are the slice
window's fields, and `finalized` records that the embedded consumer was
replaced by `nilConsumer`. -/
structure PageConsumer (α : Type) where
  asm : AppendSaveMemoryConsumer α
  itemsPerPage : Nat
  start : Nat
  stop : Nat
  idx : Nat
  morePages : Bool
  finalized : Bool
  deriving DecidableEq

/-- `Page` from the source (the page number and the page size are `Nat`:
the source panics on a negative page number or a non-positive size).
`morePages` is undefined until `Finalize`; the model initializes it to
`false`. -/
def page [Inhabited α] (pageNo itemsPerPage : Nat) (s : GoSlice α) :
    PageConsumer α :=
  { asm := appendToSaveMemory (ensureEmptyWithCapacity s (itemsPerPage + 1))
    itemsPerPage := itemsPerPage
    start := pageNo * itemsPerPage
    stop := (pageNo + 1) * itemsPerPage + 1
    idx := 0
    morePages := false
    finalized := false }

/-- `pageConsumer.CanConsume` (the promoted embedded consumer's method:
`nilConsumer` after finalization, else the slice window over `cf`). -/
def PageConsumer.canConsume (p : PageConsumer α) : Bool :=
  !p.finalized && !p.asm.finalized && decide (p.idx < p.stop)

/-- `pageConsumer.Consume` (the embedded slice consumer's method): forward
to the append-save-memory consumer once the offered index reaches the
window, and count every offered value.  Callers (the feed loop) only
invoke it while `canConsume` holds, as `Consume` panics otherwise. -/
def PageConsumer.consume [Inhabited α] (p : PageConsumer α) (v : α) :
    PageConsumer α :=
  { p with asm := if p.start ≤ p.idx then p.asm.consume v else p.asm,
           idx := p.idx + 1 }

/-- The standard feed loop for a pager: offer the next value only while
`CanConsume` is true. -/
def pageFeed [Inhabited α] : PageConsumer α → List α → PageConsumer α
  | p, [] => p
  | p, v :: vs => if p.canConsume then pageFeed (p.consume v) vs else p

/-- `pageConsumer.Finalize` from the source: idempotent; finalizes the
inner append-save-memory consumer, replaces the embedded consumer by
`nilConsumer`, and either detects the probe item (buffer length
`itemsPerPage + 1`: set `morePages` and trim the probe) or reports no
more pages. -/
def PageConsumer.finalize [Inhabited α] (p : PageConsumer α) :
    PageConsumer α :=
  if p.finalized then p
  else
    let a := p.asm.finalize
    if a.buffer.len = p.itemsPerPage + 1 then
      { p with asm := { a with buffer := truncateTo a.buffer p.itemsPerPage },
               morePages := true, finalized := true }
    else { p with asm := a, morePages := false, finalized := true }

/-- The full C1 scenario: `Page(pageNo, 5, &buf, &more)` over a fresh
buffer, fed the integers `0, 1, 2, …` (at most `n` of them) through the
standard loop, then finalized. -/
def pageRun (pageNo n : Nat) : PageConsumer Nat :=
  (pageFeed (page pageNo 5 ⟨[], 0⟩) (List.range n)).finalize

/-- State of `sliceConsumer` wrapped around an always-accepting inner
consumer that records the values forwarded to it (`collected`).  `start`
and `stop` are the Go `int` bounds (possibly negative); `idx` counts every
offered value. -/
structure SliceConsumer (α : Type) where
  start : Int
  stop : Int
  idx : Int
  collected : List α
  deriving DecidableEq

/-- `sliceConsumer.CanConsume` with an always-accepting inner consumer:
`inner.CanConsume() && idx < end` degenerates to `idx < end`. -/
def SliceConsumer.canConsume (s : SliceConsumer α) : Bool :=
  decide (s.idx < s.stop)

/-- `sliceConsumer.Consume`: forward to the inner consumer when
`idx >= start`, and increment `idx` for every offered value.  Callers (the
feed loop) only invoke it while `canConsume` holds, as `Consume` panics
otherwise. -/
def SliceConsumer.consume (s : SliceConsumer α) (v : α) : SliceConsumer α :=
  { s with collected := s.collected ++ (if s.start ≤ s.idx then [v] else []),
           idx := s.idx + 1 }

/-- The standard feed loop for a slice window: offer the next value only
while `CanConsume` is true. -/
def sliceFeed : SliceConsumer α → List α → SliceConsumer α
  | s, [] => s
  | s, v :: vs => if s.canConsume then sliceFeed (s.consume v) vs else s

/-- State of `takeWhileConsumer` wrapped around an always-accepting inner
consumer that records the values forwarded to it (`collected`).  The
chained `MapFilter` steps are modelled by their value behaviour
`f : α → Option α` (`none` = the value is filtered out). -/
structure TakeWhileConsumer (α : Type) where
  collected : List α
  done : Bool
  deriving DecidableEq

/-- `takeWhileConsumer.CanConsume` with an always-accepting inner
consumer: `inner.CanConsume() && !done` degenerates to `!done`. -/
def TakeWhileConsumer.canConsume (t : TakeWhileConsumer α) : Bool :=
  !t.done

/-- `takeWhileConsumer.Consume`: apply the chain; on drop set `done`
permanently without forwarding, on pass forward the chain's output to the
inner consumer.  Callers (the feed loop) only invoke it while `canConsume`
holds, as `Consume` panics otherwise. -/
def takeWhileConsume (f : α → Option α) (t : TakeWhileConsumer α) (v : α) :
    TakeWhileConsumer α :=
  match f v with
  | none => { t with done := true }
  | some w => { t with collected := t.collected ++ [w] }

/-- The standard feed loop for a take-while consumer: offer the next value
only while `CanConsume` is true. -/
def takeWhileFeed (f : α → Option α) :
    TakeWhileConsumer α → List α → TakeWhileConsumer α
  | t, [] => t
  | t, v :: vs =>
      if t.canConsume then takeWhileFeed f (takeWhileConsume f t v) vs else t

/-- A child of a `multiConsumer`, abstractly: a state of type `C` with a
`CanConsume` query `can` and a `Consume` transition `step`.  `childRun`
is the child's independent evolution under a value stream: it receives
each value while its own `can` holds and is `none` (pruned, receiving
nothing further) from the first moment `can` is false. -/
def childRun (can : C → Bool) (step : C → α → C) : C → List α → Option C
  | c, [] => some c
  | c, v :: vs => if can c then childRun can step (step c v) vs else none

/-- `multiConsumer` driven by the standard loop.  Each `Consume` first
prunes exhausted children in place, in order (`MustCanConsume` →
`CanConsume` → `filterFinished`); when no child survives, `CanConsume` is
false and the loop stops with the pruned, empty list; otherwise the value
is forwarded to every surviving child in their original relative order. -/
def multiFeed (can : C → Bool) (step : C → α → C) :
    List C → List α → List C
  | cs, [] => cs
  | cs, v :: vs =>
      let f := cs.filter can
      if f.isEmpty then f
      else multiFeed can step (f.map (fun c => step c v)) vs

/-- One step of a built `MapFilterer` chain: a filter (`filterer` /
`filtererInterfaceWrapper` in the source — stateless, shared by
`addClones`) or a mapper (`mapper` / `mapperInterfaceWrapper` — owning
the scratch cell at heap address `cell`, re-allocated by `addClones`).
A mapper's raw function reads the source value and yields the boolean
verdict together with the value it writes into its scratch cell. -/
inductive MFStep (V : Type) where
  | filt (p : V → Bool)
  | mapr (f : V → Bool × V) (cell : Nat)

/-- The scratch-cell heap: one value of the element type per address. -/
abbrev Heap (V : Type) := Nat → V

/-- `MapFilter` of a built chain (`sliceMapFilterer.MapFilter` over the
step list; `nilMapFilterer.MapFilter` for `[]`; the single step's own
`MapFilter` for `[s]`): run the steps left to right on the pointer `ptr`,
returning the final pointer (`none` when the value is dropped) and the
heap after the scratch-cell writes. -/
def runSteps : List (MFStep V) → Heap V → Nat → Option Nat × Heap V
  | [], h, ptr => (some ptr, h)
  | .filt p :: rest, h, ptr =>
      if p (h ptr) then runSteps rest h ptr else (none, h)
  | .mapr f c :: rest, h, ptr =>
      let r := f (h ptr)
      let h2 := Function.update h c r.2
      if r.1 then runSteps rest h2 c else (none, h2)

/-- The scratch cells owned by a chain. -/
def cellsOf : List (MFStep V) → List Nat
  | [] => []
  | .filt _ :: rest => cellsOf rest
  | .mapr _ c :: rest => c :: cellsOf rest

/-- A step's specification: the function it carries, with the scratch
address erased. -/
inductive MFSpec (V : Type) where
  | sfilt (p : V → Bool)
  | smapr (f : V → Bool × V)

/-- The ordered step-specification sequence of a built chain. -/
def specOf : List (MFStep V) → List (MFSpec V)
  | [] => []
  | .filt p :: rest => .sfilt p :: specOf rest
  | .mapr f _ :: rest => .smapr f :: specOf rest

/-- Value-level semantics of a chain: what `MapFilter` computes into the
location behind the returned pointer, independent of scratch
addressing. -/
def denote : List (MFSpec V) → V → Option V
  | [], v => some v
  | .sfilt p :: rest, v => if p v then denote rest v else none
  | .smapr f :: rest, v => if (f v).1 then denote rest (f v).2 else none

/-- The observable outcome of one `MapFilter` call: the value stored at
the returned pointer in the resulting heap (`none` when dropped). -/
def resultValue (steps : List (MFStep V)) (h : Heap V) (ptr : Nat) :
    Option V :=
  ((runSteps steps h ptr).1).map (runSteps steps h ptr).2

/-- An argument acceptable to `NewMapFilterer` / `MapFilter` /
`TakeWhile`: a raw one-argument filter function (or a `Filterer`), a raw
two-argument mapper function (or a `Mapper`), or an existing
`MapFilterer` (its built step list). -/
inductive MFArg (V : Type) where
  | afilt (p : V → Bool)
  | amapr (f : V → Bool × V)
  | amf (steps : List (MFStep V))

/-- `mfSize` from the source: an existing `MapFilterer` reports its own
step count, any other argument counts as one step. -/
def mfSize : MFArg V → Nat
  | .afilt _ => 1
  | .amapr _ => 1
  | .amf steps => steps.length

/-- Clone of a built chain (`addClones` over its steps): filters are
shared unchanged, mappers are re-created with a fresh scratch cell from
the allocator `n`; returns the clone and the next free address. -/
def cloneSteps : List (MFStep V) → Nat → List (MFStep V) × Nat
  | [], n => ([], n)
  | .filt p :: rest, n =>
      let r := cloneSteps rest n
      (.filt p :: r.1, r.2)
  | .mapr f _ :: rest, n =>
      let r := cloneSteps rest (n + 1)
      (.mapr f n :: r.1, r.2)

/-- `mfAddClones` from the source, for one argument: a raw mapper (or
`Mapper`) gets a fresh scratch cell, a raw filter (or `Filterer`) is
wrapped with no cell, an existing chain contributes clones of its
steps. -/
def mfAddClones : MFArg V → Nat → List (MFStep V) × Nat
  | .afilt p, n => ([.filt p], n)
  | .amapr f, n => ([.mapr f n], n + 1)
  | .amf steps, n => cloneSteps steps n

/-- `NewMapFilterer` from the source, with the scratch-cell allocator made
explicit: splice the clones of all arguments into one flat step list.
(The source then wraps the list as `nilMapFilterer`, the unwrapped single
step, or `sliceMapFilterer`; in every case `MapFilter` is `runSteps` of
the step list and `size` is the list's length.) -/
def newMapFilterer : List (MFArg V) → Nat → List (MFStep V) × Nat
  | [], n => ([], n)
  | a :: rest, n =>
      let r := mfAddClones a n
      let r2 := newMapFilterer rest r.2
      (r.1 ++ r2.1, r2.2)

/-- The step-specification sequence an argument list contributes. -/
def argsSpec : List (MFArg V) → List (MFSpec V)
  | [] => []
  | .afilt p :: rest => .sfilt p :: argsSpec rest
  | .amapr f :: rest => .smapr f :: argsSpec rest
  | .amf steps :: rest => specOf steps ++ argsSpec rest

/-- The heap after a sequence of `MapFilter` calls on one chain, with the
given input pointers. -/
def heapAfterRuns (steps : List (MFStep V)) : Heap V → List Nat → Heap V
  | h, [] => h
  | h, q :: qs => heapAfterRuns steps ((runSteps steps h q).2) qs

/-- The state of any consumer this package constructs: `Nil`,
`ConsumerFunc` (stateless, modelled as one node since its effects live
outside the consumer), `AppendTo`/`AppendPtrsTo` (same observable shape:
an ever-growing buffer), `AppendToSaveMemory`, `Compose` (two or more
children), `Slice`, `MapFilter`, `TakeWhile` (chains represented by their
value behaviour `α → Option α`, `none` = filtered out) and `Page` (the
source's `pageConsumer`, flattened as in `PageConsumer`: `finalized`
records that the embedded consumer was replaced by `nilConsumer`). -/
inductive ConsumerState (α : Type) where
  | nil : ConsumerState α
  | cfunc : ConsumerState α
  | append (buf : List α) : ConsumerState α
  | appendSave (a : AppendSaveMemoryConsumer α) : ConsumerState α
  | multi (children : List (ConsumerState α)) : ConsumerState α
  | sliceC (inner : ConsumerState α) (start stop idx : Int) : ConsumerState α
  | mapFilterC (inner : ConsumerState α) (f : α → Option α) : ConsumerState α
  | takeWhileC (inner : ConsumerState α) (f : α → Option α) (done : Bool) :
      ConsumerState α
  | pageC (a : AppendSaveMemoryConsumer α) (itemsPerPage start stop idx : Nat)
      (morePages finalized : Bool) : ConsumerState α

mutual
/-- `CanConsume` of every consumer of the package (the value it returns;
the in-place pruning a call performs is `check` below). -/
def canConsume : ConsumerState α → Bool
  | .nil => false
  | .cfunc => true
  | .append _ => true
  | .appendSave a => !a.finalized
  | .multi cs => canAny cs
  | .sliceC inner _ stop idx => canConsume inner && decide (idx < stop)
  | .mapFilterC inner _ => canConsume inner
  | .takeWhileC inner _ d => canConsume inner && !d
  | .pageC a _ _ stop idx _ fin => !fin && !a.finalized && decide (idx < stop)
/-- `multiConsumer.CanConsume`'s emptiness test: some child can consume
(equivalently, `filterFinished` leaves the child list non-empty). -/
def canAny : List (ConsumerState α) → Bool
  | [] => false
  | c :: cs => canConsume c || canAny cs
end

mutual
/-- `Consume` of every consumer of the package; `none` models the panic
raised (by `MustCanConsume` or the consumer itself) when `CanConsume` is
false, which leaves the consumer unmutated. -/
def consume [Inhabited α] : ConsumerState α → α → Option (ConsumerState α)
  | .nil, _ => none
  | .cfunc, _ => some .cfunc
  | .append buf, v => some (.append (buf ++ [v]))
  | .appendSave a, v =>
      if a.finalized then none else some (.appendSave (a.consume v))
  | .multi cs, v =>
      if canAny cs then (consumeList cs v).map ConsumerState.multi else none
  | .sliceC inner s e i, v =>
      if canConsume inner && decide (i < e) then
        (if s ≤ i then consume inner v else some inner).map
          (fun c2 => .sliceC c2 s e (i + 1))
      else none
  | .mapFilterC inner f, v =>
      if canConsume inner then
        (match f v with
         | none => some inner
         | some w => consume inner w).map (fun c2 => .mapFilterC c2 f)
      else none
  | .takeWhileC inner f d, v =>
      if canConsume inner && !d then
        match f v with
        | none => some (.takeWhileC inner f true)
        | some w => (consume inner w).map (fun c2 => .takeWhileC c2 f d)
      else none
  | .pageC a size s e i more fin, v =>
      if !fin && !a.finalized && decide (i < e) then
        some (.pageC (if s ≤ i then a.consume v else a) size s e (i + 1)
          more fin)
      else none
/-- `multiConsumer.Consume`'s loop over the pruned child list: children
whose `CanConsume` is false are removed (per `filterFinished`), the rest
each consume the value in order. -/
def consumeList [Inhabited α] :
    List (ConsumerState α) → α → Option (List (ConsumerState α))
  | [], _ => some []
  | c :: cs, v =>
      if canConsume c then
        match consume c v, consumeList cs v with
        | some c2, some cs2 => some (c2 :: cs2)
        | _, _ => none
      else consumeList cs v
end

/-- `Finalize` of the finalizable consumers (`AppendToSaveMemory`,
`Page`); every other consumer has no `Finalize` method, modelled as the
identity. -/
def finalizeState [Inhabited α] : ConsumerState α → ConsumerState α
  | .appendSave a => .appendSave a.finalize
  | .pageC a size s e i more fin =>
      if fin then .pageC a size s e i more fin
      else
        let a2 := a.finalize
        if a2.buffer.len = size + 1 then
          .pageC { a2 with buffer := truncateTo a2.buffer size }
            size s e i true true
        else .pageC a2 size s e i false true
  | c => c

mutual
/-- The state mutation performed by a `CanConsume` call: `multiConsumer`
prunes (in order) every child whose own `CanConsume` — itself pruning the
child's insides — is false; wrapping consumers delegate to their inner
consumer; every other consumer is untouched. -/
def check : ConsumerState α → ConsumerState α
  | .multi cs => .multi ((checkList cs).filter canConsume)
  | .sliceC inner s e i => .sliceC (check inner) s e i
  | .mapFilterC inner f => .mapFilterC (check inner) f
  | .takeWhileC inner f d => .takeWhileC (check inner) f d
  | c => c
/-- `filterFinished`'s traversal: each child's `CanConsume` is called,
pruning inside the child. -/
def checkList : List (ConsumerState α) → List (ConsumerState α)
  | [] => []
  | c :: cs => check c :: checkList cs
end

/-- An operation available on a consumer: offering a value, finalizing,
or querying `CanConsume` (which mutates `multiConsumer`s). -/
inductive ConsumerOp (α : Type) where
  | consumeOp (v : α)
  | finalizeOp
  | checkOp

/-- Apply one operation; a panicking `Consume` leaves the state as it
was. -/
def applyOp [Inhabited α] (s : ConsumerState α) : ConsumerOp α → ConsumerState α
  | .consumeOp v => (consume s v).getD s
  | .finalizeOp => finalizeState s
  | .checkOp => check s

/-- `MapFilter` from the source: build the chain from the arguments (with
the scratch allocator at `n`); when it has zero effective steps return
the inner consumer itself, otherwise wrap it in a `mapFilterConsumer`
carrying the chain's value behaviour. -/
def mapFilterConsumerOf [Inhabited α] (c : ConsumerState α)
    (args : List (MFArg α)) (n : Nat) : ConsumerState α :=
  if (newMapFilterer args n).1.length = 0 then c
  else .mapFilterC c (denote (specOf (newMapFilterer args n).1))

/-- `TakeWhile` from the source: build the chain from the arguments (with
the scratch allocator at `n`); when it has zero effective steps return
the inner consumer itself, otherwise wrap it in a `takeWhileConsumer`
with a fresh `done` flag. -/
def takeWhileConsumerOf [Inhabited α] (c : ConsumerState α)
    (args : List (MFArg α)) (n : Nat) : ConsumerState α :=
  if (newMapFilterer args n).1.length = 0 then c
  else .takeWhileC c (denote (specOf (newMapFilterer args n).1)) false

theorem take_set_eq_append (l : List α) (i : Nat) (v : α) (h : i < l.length) :
    (l.set i v).take (i + 1) = l.take i ++ [v] := by
  induction l generalizing i with
  | nil => simp at h
  | cons x xs ih =>
    cases i with
    | zero => simp
    | succ j =>
      simp only [List.set_cons_succ, List.take_succ_cons, List.cons_append]
      rw [ih j (by simpa using h)]

theorem asmInv_init [Inhabited α] (arr0 : List α) :
    AsmInv (appendToSaveMemory (⟨arr0, 0⟩ : GoSlice α)) [] := by
  unfold AsmInv appendToSaveMemory truncateTo GoSlice.exposed
  by_cases h : arr0.length < 4
  · simp only [if_pos h, if_neg (by omega : ¬ 4 ≤ arr0.length)]
    simp
  · simp only [if_neg h, if_pos (le_refl arr0.length)]
    simp only [List.take_zero, true_and]
    omega

theorem asmInv_consume [Inhabited α] {a : AppendSaveMemoryConsumer α}
    {done : List α} (h : AsmInv a done) (v : α) :
    AsmInv (a.consume v) (done ++ [v]) := by
  obtain ⟨hfin, htake, hle, hcap, hpos⟩ := h
  unfold AppendSaveMemoryConsumer.consume
  rw [hfin]
  simp only [Bool.false_eq_true, if_false]
  by_cases hfull : a.length = a.buffer.len
  · -- the logical length caught up: grow to 2 * length, then write
    simp only [if_pos hfull]
    have hlpos : 0 < a.length := by omega
    have h2 : ¬ 2 * a.length ≤ a.buffer.arr.length := by omega
    have harrlen : a.buffer.arr.length = a.length := by omega
    have hexp : a.buffer.arr.take a.buffer.len = a.buffer.arr := by
      rw [hcap]; exact List.take_length _
    unfold truncateTo GoSlice.exposed
    simp only [if_neg h2, hexp]
    refine ⟨rfl, ?_, ?_, ?_, ?_⟩
    · dsimp only
      rw [take_set_eq_append _ _ _
        (by simp only [List.length_append, List.length_replicate]; omega)]
      rw [List.take_append_of_le_length (by omega), htake]
    · dsimp only
      omega
    · dsimp only
      simp only [List.length_set, List.length_append, List.length_replicate]
      omega
    · dsimp only
      omega
  · -- room available: write into the next slot
    simp only [if_neg hfull]
    have hlt : a.length < a.buffer.arr.length := by omega
    refine ⟨rfl, ?_, by simp; omega, by simp [hcap], by simp; omega⟩
    rw [take_set_eq_append _ _ _ hlt, htake]

theorem asmInv_run [Inhabited α] {a : AppendSaveMemoryConsumer α}
    {done : List α} (h : AsmInv a done) (vs : List α) :
    AsmInv (vs.foldl AppendSaveMemoryConsumer.consume a) (done ++ vs) := by
  induction vs generalizing a done with
  | nil => simpa using h
  | cons v vs ih =>
    simp only [List.foldl_cons]
    have := ih (asmInv_consume h v)
    simpa using this

/-- C3: after the consumer returned by `AppendToSaveMemory` over an
initially empty slice of arbitrary capacity consumes the values `vs` and
`Finalize` is called, the slice exposes exactly `vs` (so it has length
`vs.length`) in offered order, and a second `Finalize` leaves the slice
and the consumer state unchanged. -/
theorem asmRun_spec [Inhabited α] (arr0 vs : List α) :
    (asmRun arr0 vs).buffer.exposed = vs ∧
    (asmRun arr0 vs).buffer.len = vs.length ∧
    (asmRun (α := α) arr0 vs).finalize = asmRun arr0 vs := by
  have hinv := asmInv_run (asmInv_init (α := α) arr0) vs
  rw [List.nil_append] at hinv
  unfold asmRun
  obtain ⟨hfin, htake, hle, hcap, hpos⟩ := hinv
  set a1 := vs.foldl AppendSaveMemoryConsumer.consume
    (appendToSaveMemory (⟨arr0, 0⟩ : GoSlice α)) with ha1
  have hlen : a1.length = vs.length := by
    have := congrArg List.length htake
    simp only [List.length_take] at this
    omega
  unfold AppendSaveMemoryConsumer.finalize
  rw [hfin]
  simp only [Bool.false_eq_true, if_false]
  unfold truncateTo
  rw [if_pos (by omega)]
  refine ⟨?_, by simpa using hlen, by simp⟩
  unfold GoSlice.exposed
  dsimp only
  rw [htake]

/-- C9 counterexample: for a target slice that is empty but already has
capacity 8, construction pre-extends the buffer to exactly the existing
capacity 8 — not to double the capacity (16) as the claim states. -/
theorem appendToSaveMemory_no_capacity_doubling :
    (appendToSaveMemory (⟨List.replicate 8 0, 0⟩ : GoSlice Nat)).buffer.len = 8 ∧
    (appendToSaveMemory
      (⟨List.replicate 8 0, 0⟩ : GoSlice Nat)).buffer.arr.length = 8 ∧
    (appendToSaveMemory (⟨List.replicate 8 0, 0⟩ : GoSlice Nat)).buffer.len ≠ 16 := by
  decide

/-- C9 (amended): `AppendToSaveMemory` pre-extends the target buffer at
construction to at least 4 slots, or to exactly the existing capacity when
that capacity is at least 4 (together: to `max 4 cap`); thereafter each
`Consume` writes into the next unused logical slot, and the underlying
capacity is doubled exactly when the logical length has caught up to the
physical capacity. -/
theorem appendToSaveMemory_sizing [Inhabited α] (s : GoSlice α)
    (a : AppendSaveMemoryConsumer α) (v : α) :
    (s.len ≤ s.arr.length →
      (appendToSaveMemory s).buffer.len = max 4 s.arr.length ∧
      (appendToSaveMemory s).buffer.arr.length = max 4 s.arr.length) ∧
    (a.finalized = false → a.length ≤ a.buffer.len →
      a.buffer.len = a.buffer.arr.length → 0 < a.buffer.len →
      ((a.consume v).length = a.length + 1 ∧
       (a.consume v).buffer.arr.take (a.length + 1)
         = a.buffer.arr.take a.length ++ [v] ∧
       (a.consume v).buffer.arr.length
         = if a.length = a.buffer.arr.length then 2 * a.length
           else a.buffer.arr.length)) := by
  constructor
  · intro hsl
    unfold appendToSaveMemory truncateTo GoSlice.exposed
    by_cases h : s.arr.length < 4
    · rw [if_pos h, if_neg (by omega)]
      simp only [List.length_append, List.length_take, List.length_replicate]
      omega
    · rw [if_neg h, if_pos (le_refl _)]
      dsimp only
      omega
  · intro hfin hle hcap hpos
    unfold AppendSaveMemoryConsumer.consume
    rw [hfin]
    simp only [Bool.false_eq_true, if_false]
    by_cases hfull : a.length = a.buffer.len
    · simp only [if_pos hfull]
      have hlpos : 0 < a.length := by omega
      have h2 : ¬ 2 * a.length ≤ a.buffer.arr.length := by omega
      have harrlen : a.buffer.arr.length = a.length := by omega
      have hexp : a.buffer.arr.take a.buffer.len = a.buffer.arr := by
        rw [hcap]; exact List.take_length _
      unfold truncateTo GoSlice.exposed
      simp only [if_neg h2, hexp]
      refine ⟨by simp, ?_, ?_⟩
      · dsimp only
        rw [take_set_eq_append _ _ _
          (by simp only [List.length_append, List.length_replicate]; omega)]
        rw [List.take_append_of_le_length (by omega)]
      · dsimp only
        rw [if_pos (by omega)]
        simp only [List.length_set, List.length_append, List.length_replicate]
        omega
    · simp only [if_neg hfull]
      have hlt : a.length < a.buffer.arr.length := by omega
      refine ⟨by simp, ?_, ?_⟩
      · dsimp only
        rw [take_set_eq_append _ _ _ hlt]
      · dsimp only
        rw [if_neg (by omega), List.length_set]

/-- Witness for C9 (amended): the construction part applied to an empty
slice of capacity 2, and the consume part applied to a live consumer of
capacity 4 holding 2 logical values. -/
theorem appendToSaveMemory_sizing_witness :
    ((appendToSaveMemory (⟨[0, 0], 1⟩ : GoSlice Nat)).buffer.len = max 4 2 ∧
     (appendToSaveMemory (⟨[0, 0], 1⟩ : GoSlice Nat)).buffer.arr.length
       = max 4 2) ∧
    ((AppendSaveMemoryConsumer.consume ⟨⟨[9, 9, 9, 9], 4⟩, 2, false⟩ 7).length
        = 2 + 1 ∧
     (AppendSaveMemoryConsumer.consume
        ⟨⟨[9, 9, 9, 9], 4⟩, 2, false⟩ 7).buffer.arr.take (2 + 1)
        = [9, 9] ++ [7] ∧
     (AppendSaveMemoryConsumer.consume
        ⟨⟨[9, 9, 9, 9], 4⟩, 2, false⟩ 7).buffer.arr.length
        = if 2 = 4 then 2 * 2 else 4) :=
  ⟨(appendToSaveMemory_sizing (⟨[0, 0], 1⟩ : GoSlice Nat)
      (⟨⟨[9, 9, 9, 9], 4⟩, 2, false⟩ : AppendSaveMemoryConsumer Nat) 7).1
      (by decide),
   (appendToSaveMemory_sizing (⟨[0, 0], 1⟩ : GoSlice Nat)
      (⟨⟨[9, 9, 9, 9], 4⟩, 2, false⟩ : AppendSaveMemoryConsumer Nat) 7).2
      (by decide) (by decide) (by decide) (by decide)⟩

theorem pageFeed_dead [Inhabited α] {p : PageConsumer α}
    (h : p.canConsume = false) (vs : List α) : pageFeed p vs = p := by
  cases vs <;> simp [pageFeed, h]

theorem pageFeed_append [Inhabited α] (p : PageConsumer α) (xs ys : List α) :
    pageFeed p (xs ++ ys) = pageFeed (pageFeed p xs) ys := by
  induction xs generalizing p with
  | nil => rfl
  | cons x xs ih =>
    by_cases h : p.canConsume = true
    · simp only [List.cons_append, pageFeed, if_pos h]
      exact ih _
    · rw [Bool.not_eq_true] at h
      simp only [List.cons_append, pageFeed, h, Bool.false_eq_true, if_false]
      exact (pageFeed_dead h ys).symm

/-- C1 counterexample: `Page(2, 5, &buf, &more)` offered exactly the 10
values 0..9 yields, after `Finalize`, an empty buffer — not `[10]` as the
claim states (every offered index is below the window start 10, so nothing
was forwarded; the package's own test expects `[]` here and `[10]` only
when the 11 values 0..10 are offered). -/
theorem pageRun_two_ten_empty :
    (pageRun 2 10).asm.buffer.exposed = [] ∧
    (pageRun 2 10).asm.buffer.exposed ≠ [10] ∧
    (pageRun 2 10).morePages = false := by
  decide

/-- C1 (amended): with `Page(0, 5, &buf, &more)` fed the integers
`0, 1, 2, …` through the standard loop and then finalized, `buf` is
`[0,1,2,3,4]` and `more` is true whenever at least 6 values were
available, and `buf` holds the first `n` integers with `more` false
whenever only `n ≤ 5` were; for `Page(2, 5, &buf, &more)` with exactly
the 10 values 0..9 offered, `buf` is empty (not `[10]`) and `more` is
false — the probe slot at index 15 was never reached. -/
theorem pageRun_pagination (n : Nat) :
    (6 ≤ n → (pageRun 0 n).asm.buffer.exposed = [0, 1, 2, 3, 4] ∧
             (pageRun 0 n).morePages = true) ∧
    (n ≤ 5 → (pageRun 0 n).asm.buffer.exposed = List.range n ∧
             (pageRun 0 n).morePages = false) ∧
    ((pageRun 2 10).asm.buffer.exposed = [] ∧
     (pageRun 2 10).morePages = false) := by
  refine ⟨?_, ?_, by decide⟩
  · intro h6
    obtain ⟨m, rfl⟩ : ∃ m, n = 6 + m := ⟨n - 6, by omega⟩
    unfold pageRun
    rw [List.range_add, pageFeed_append, pageFeed_dead (by decide)]
    decide
  · intro h5
    interval_cases n <;> decide

/-- Witness for C1 (amended): the two guarded parts evaluated at streams
of exactly 6 and exactly 5 available values. -/
theorem pageRun_pagination_witness :
    ((pageRun 0 6).asm.buffer.exposed = [0, 1, 2, 3, 4] ∧
     (pageRun 0 6).morePages = true) ∧
    ((pageRun 0 5).asm.buffer.exposed = List.range 5 ∧
     (pageRun 0 5).morePages = false) :=
  ⟨(pageRun_pagination 6).1 (by decide),
   (pageRun_pagination 5).2.1 (by decide)⟩

theorem sliceFeed_collected (vs : List α) (s e i : Int) (acc : List α) :
    (sliceFeed ⟨s, e, i, acc⟩ vs).collected
      = acc ++ (vs.take (e - i).toNat).drop (s - i).toNat := by
  induction vs generalizing i acc with
  | nil => simp [sliceFeed]
  | cons v vs ih =>
    by_cases h : i < e
    · simp only [sliceFeed, SliceConsumer.canConsume, SliceConsumer.consume,
        decide_eq_true_eq, if_pos h]
      rw [ih]
      have he : (e - i).toNat = (e - (i + 1)).toNat + 1 := by omega
      rw [he, List.take_succ_cons]
      by_cases hs : s ≤ i
      · have h0 : (s - i).toNat = 0 := by omega
        have h1 : (s - (i + 1)).toNat = 0 := by omega
        simp [hs, h0, h1]
      · have h0 : (s - i).toNat = (s - (i + 1)).toNat + 1 := by omega
        simp [hs, h0]
    · have he : (e - i).toNat = 0 := by omega
      simp [sliceFeed, SliceConsumer.canConsume, h, he]

/-- C4: driving `Slice(inner, s, e)` over an always-accepting inner
consumer with a stream of `N` values through the standard loop forwards
exactly the values at offered indices `max(s,0)` to `min(e,N) - 1` in
original order — `max(0, min(e,N) - max(s,0))` of them; the internal index
counts every offered value, including those below `s`. -/
theorem sliceConsumer_window (s e : Int) (vs : List α) :
    (sliceFeed ⟨s, e, 0, []⟩ vs).collected
      = (vs.take e.toNat).drop s.toNat ∧
    ((sliceFeed ⟨s, e, 0, []⟩ vs).collected.length : Int)
      = max 0 (min e (vs.length : Int) - max s 0) := by
  have h := sliceFeed_collected vs s e 0 []
  simp only [Int.sub_zero, List.nil_append] at h
  refine ⟨h, ?_⟩
  rw [h]
  simp only [List.length_drop, List.length_take]
  omega

theorem takeWhileFeed_dead (f : α → Option α) {t : TakeWhileConsumer α}
    (h : t.canConsume = false) (vs : List α) : takeWhileFeed f t vs = t := by
  cases vs <;> simp [takeWhileFeed, h]

theorem takeWhileFeed_run (f : α → Option α) (pre : List α)
    (hpre : ∀ u ∈ pre, f u = some u) (v : α) (hv : f v = none)
    (post : List α) (acc : List α) :
    takeWhileFeed f ⟨acc, false⟩ (pre ++ v :: post) = ⟨acc ++ pre, true⟩ := by
  induction pre generalizing acc with
  | nil =>
    simp only [List.nil_append, takeWhileFeed, TakeWhileConsumer.canConsume,
      Bool.not_false, if_pos]
    rw [show takeWhileConsume f ⟨acc, false⟩ v = ⟨acc, true⟩ by
      simp [takeWhileConsume, hv]]
    rw [takeWhileFeed_dead f (by rfl) post]
    simp
  | cons u pre ih =>
    have hu : f u = some u := hpre u (by simp)
    simp only [List.cons_append, takeWhileFeed, TakeWhileConsumer.canConsume,
      Bool.not_false, if_pos]
    rw [show takeWhileConsume f ⟨acc, false⟩ u = ⟨acc ++ [u], false⟩ by
      simp [takeWhileConsume, hu]]
    simp only [List.append_eq]
    rw [ih (fun x hx => hpre x (by simp [hx])) (acc ++ [u])]
    simp

/-- C5: offering `pre ++ vj :: post` to a `TakeWhile` consumer whose chain
passes every value of `pre` unchanged and drops `vj` forwards exactly
`pre` to the inner consumer; `CanConsume` is false immediately after `vj`
is offered and stays false under any further feeding, even though the
inner (always-accepting) consumer could still accept. -/
theorem takeWhileConsumer_spec (f : α → Option α) (pre : List α) (v : α)
    (post : List α) (hpre : ∀ u ∈ pre, f u = some u) (hv : f v = none) :
    (takeWhileFeed f ⟨[], false⟩ (pre ++ v :: post)).collected = pre ∧
    (takeWhileFeed f ⟨[], false⟩ (pre ++ v :: post)).done = true ∧
    (takeWhileFeed f ⟨[], false⟩ (pre ++ v :: post)).canConsume = false ∧
    ∀ ws, takeWhileFeed f (takeWhileFeed f ⟨[], false⟩ (pre ++ v :: post)) ws
          = takeWhileFeed f ⟨[], false⟩ (pre ++ v :: post) := by
  rw [takeWhileFeed_run f pre hpre v hv post []]
  refine ⟨by simp, rfl, rfl, ?_⟩
  intro ws
  exact takeWhileFeed_dead f (by rfl) ws

/-- Witness for C5: the chain keeps naturals below 2 and drops the rest;
feeding `[0, 1, 2, 9]` forwards `[0, 1]` and locks the consumer. -/
theorem takeWhileConsumer_spec_witness :
    (∀ u ∈ [0, 1], (fun n => if n < 2 then some n else none) u = some u) ∧
    ((takeWhileFeed (fun n => if n < 2 then some n else none)
        ⟨[], false⟩ ([0, 1] ++ 2 :: [9])).collected = [0, 1] ∧
     (takeWhileFeed (fun n => if n < 2 then some n else none)
        ⟨[], false⟩ ([0, 1] ++ 2 :: [9])).done = true) :=
  ⟨by decide,
   ⟨(takeWhileConsumer_spec (fun n => if n < 2 then some n else none)
       [0, 1] 2 [9] (by decide) (by decide)).1,
    (takeWhileConsumer_spec (fun n => if n < 2 then some n else none)
       [0, 1] 2 [9] (by decide) (by decide)).2.1⟩⟩

theorem filterMap_filter_map (p : C → Bool) (m : C → C) (g : C → Option C)
    (cs : List C) :
    ((cs.filter p).map m).filterMap g
      = cs.filterMap (fun c => if p c then g (m c) else none) := by
  induction cs with
  | nil => rfl
  | cons c cs ih =>
    by_cases h : p c <;>
      simp [List.filter_cons, List.filterMap_cons, h, ih]

/-- C6: a `Compose` consumer over children `cs`, driven by the standard
loop on the value stream `vs`, evolves exactly as the independent
per-child runs: a child is dropped (and receives no further value) from
the first `Consume` at which its `CanConsume` is false, every surviving
child receives each subsequently consumed value, and the survivors keep
their original relative order. -/
theorem multiConsumer_fanout (can : C → Bool) (step : C → α → C)
    (cs : List C) (vs : List α) :
    multiFeed can step cs vs
      = cs.filterMap (fun c => childRun can step c vs) := by
  induction vs generalizing cs with
  | nil => simp [multiFeed, childRun]
  | cons v vs ih =>
    simp only [multiFeed]
    by_cases hf : (cs.filter can).isEmpty
    · rw [if_pos hf]
      rw [List.isEmpty_iff] at hf
      have hdead : ∀ c ∈ cs, can c = false := by
        intro c hc
        by_contra hcan
        have hmem : c ∈ cs.filter can :=
          List.mem_filter.mpr ⟨hc, by simpa using hcan⟩
        simp [hf] at hmem
      rw [hf]
      symm
      rw [List.filterMap_eq_nil_iff]
      intro c hc
      simp [childRun, hdead c hc]
    · rw [if_neg hf, ih, filterMap_filter_map]
      have hstep : ∀ c : C,
          (if can c then childRun can step (step c v) vs else none)
            = childRun can step c (v :: vs) := by
        intro c
        by_cases h : can c <;> simp [childRun, h]
      exact congrArg (fun g => List.filterMap g cs) (funext hstep)

theorem cloneSteps_counter_le (steps : List (MFStep V)) (n : Nat) :
    n ≤ (cloneSteps steps n).2 := by
  induction steps generalizing n with
  | nil => exact le_refl n
  | cons s rest ih =>
    cases s with
    | filt p => exact ih n
    | mapr f c => exact Nat.le_trans (Nat.le_succ n) (ih (n + 1))

theorem cloneSteps_cells (steps : List (MFStep V)) (n : Nat) :
    ∀ c ∈ cellsOf (cloneSteps steps n).1, n ≤ c ∧ c < (cloneSteps steps n).2 := by
  induction steps generalizing n with
  | nil => intro c hc; simp [cloneSteps, cellsOf] at hc
  | cons s rest ih =>
    cases s with
    | filt p =>
      intro c hc
      simp only [cloneSteps, cellsOf] at hc ⊢
      exact ih n c hc
    | mapr f c0 =>
      intro c hc
      simp only [cloneSteps, cellsOf, List.mem_cons] at hc ⊢
      rcases hc with rfl | hc
      · exact ⟨le_refl c, Nat.lt_of_lt_of_le (Nat.lt_succ_self c)
          (cloneSteps_counter_le rest (c + 1))⟩
      · have := ih (n + 1) c hc
        exact ⟨by omega, this.2⟩

theorem mfAddClones_counter_le (a : MFArg V) (n : Nat) :
    n ≤ (mfAddClones a n).2 := by
  cases a with
  | afilt p => exact le_refl n
  | amapr f => exact Nat.le_succ n
  | amf steps => exact cloneSteps_counter_le steps n

theorem mfAddClones_cells (a : MFArg V) (n : Nat) :
    ∀ c ∈ cellsOf (mfAddClones a n).1, n ≤ c ∧ c < (mfAddClones a n).2 := by
  cases a with
  | afilt p => intro c hc; simp [mfAddClones, cellsOf] at hc
  | amapr f =>
    intro c hc
    simp only [mfAddClones, cellsOf, List.mem_cons, List.not_mem_nil,
      or_false] at hc
    subst hc
    exact ⟨le_refl c, Nat.lt_succ_self c⟩
  | amf steps => exact cloneSteps_cells steps n

theorem newMapFilterer_counter_le (args : List (MFArg V)) (n : Nat) :
    n ≤ (newMapFilterer args n).2 := by
  induction args generalizing n with
  | nil => exact le_refl n
  | cons a rest ih =>
    exact Nat.le_trans (mfAddClones_counter_le a n) (ih (mfAddClones a n).2)

theorem cellsOf_append (xs ys : List (MFStep V)) :
    cellsOf (xs ++ ys) = cellsOf xs ++ cellsOf ys := by
  induction xs with
  | nil => rfl
  | cons s rest ih => cases s <;> simp [cellsOf, ih]

theorem newMapFilterer_cells (args : List (MFArg V)) (n : Nat) :
    ∀ c ∈ cellsOf (newMapFilterer args n).1,
      n ≤ c ∧ c < (newMapFilterer args n).2 := by
  induction args generalizing n with
  | nil => intro c hc; simp [newMapFilterer, cellsOf] at hc
  | cons a rest ih =>
    intro c hc
    simp only [newMapFilterer, cellsOf_append, List.mem_append] at hc ⊢
    rcases hc with hc | hc
    · have h1 := mfAddClones_cells a n c hc
      exact ⟨h1.1, Nat.lt_of_lt_of_le h1.2
        (newMapFilterer_counter_le rest (mfAddClones a n).2)⟩
    · have h1 := ih (mfAddClones a n).2 c hc
      exact ⟨Nat.le_trans (mfAddClones_counter_le a n) h1.1, h1.2⟩

theorem runSteps_frame (steps : List (MFStep V)) (h : Heap V) (ptr a : Nat)
    (ha : a ∉ cellsOf steps) : (runSteps steps h ptr).2 a = h a := by
  induction steps generalizing h ptr with
  | nil => rfl
  | cons s rest ih =>
    cases s with
    | filt p =>
      simp only [cellsOf] at ha
      simp only [runSteps]
      by_cases hp : p (h ptr)
      · rw [if_pos hp]; exact ih h ptr ha
      · rw [if_neg hp]
    | mapr f c =>
      simp only [cellsOf, List.mem_cons, not_or] at ha
      simp only [runSteps]
      have hup : Function.update h c (f (h ptr)).2 a = h a :=
        Function.update_noteq ha.1 _ h
      by_cases hb : (f (h ptr)).1
      · rw [if_pos hb, ih _ c ha.2, hup]
      · rw [if_neg hb]; exact hup

theorem runSteps_ptr_congr (steps : List (MFStep V)) {h h2 : Heap V}
    (ptr : Nat) (hv : h ptr = h2 ptr) :
    (runSteps steps h ptr).1 = (runSteps steps h2 ptr).1 := by
  induction steps generalizing h h2 ptr with
  | nil => rfl
  | cons s rest ih =>
    cases s with
    | filt p =>
      simp only [runSteps, hv]
      by_cases hp : p (h2 ptr)
      · rw [if_pos hp, if_pos hp]; exact ih ptr hv
      · rw [if_neg hp, if_neg hp]
    | mapr f c =>
      simp only [runSteps, hv]
      by_cases hb : (f (h2 ptr)).1
      · rw [if_pos hb, if_pos hb]
        exact ih c (by simp [Function.update_same])
      · rw [if_neg hb, if_neg hb]

theorem resultValue_denote (steps : List (MFStep V)) (h : Heap V)
    (ptr : Nat) : resultValue steps h ptr = denote (specOf steps) (h ptr) := by
  induction steps generalizing h ptr with
  | nil => rfl
  | cons s rest ih =>
    cases s with
    | filt p =>
      simp only [resultValue, runSteps, specOf, denote]
      by_cases hp : p (h ptr)
      · rw [if_pos hp, if_pos hp]; exact ih h ptr
      · rw [if_neg hp, if_neg hp]; rfl
    | mapr f c =>
      simp only [resultValue, runSteps, specOf, denote]
      by_cases hb : (f (h ptr)).1
      · rw [if_pos hb, if_pos hb]
        have := ih (Function.update h c (f (h ptr)).2) c
        rw [Function.update_same] at this
        exact this
      · rw [if_neg hb, if_neg hb]; rfl

theorem specOf_append (xs ys : List (MFStep V)) :
    specOf (xs ++ ys) = specOf xs ++ specOf ys := by
  induction xs with
  | nil => rfl
  | cons s rest ih => cases s <;> simp [specOf, ih]

theorem specOf_cloneSteps (steps : List (MFStep V)) (n : Nat) :
    specOf (cloneSteps steps n).1 = specOf steps := by
  induction steps generalizing n with
  | nil => rfl
  | cons s rest ih => cases s <;> simp [cloneSteps, specOf, ih]

theorem specOf_newMapFilterer (args : List (MFArg V)) (n : Nat) :
    specOf (newMapFilterer args n).1 = argsSpec args := by
  induction args generalizing n with
  | nil => rfl
  | cons a rest ih =>
    cases a with
    | afilt p => simp [newMapFilterer, mfAddClones, specOf_append, specOf, ih,
        argsSpec]
    | amapr f => simp [newMapFilterer, mfAddClones, specOf_append, specOf, ih,
        argsSpec]
    | amf steps => simp [newMapFilterer, mfAddClones, specOf_append,
        specOf_cloneSteps, ih, argsSpec]

theorem specOf_length (steps : List (MFStep V)) :
    (specOf steps).length = steps.length := by
  induction steps with
  | nil => rfl
  | cons s rest ih => cases s <;> simp [specOf, ih]

theorem heapAfterRuns_frame (steps : List (MFStep V)) (h : Heap V)
    (qs : List Nat) (a : Nat) (ha : a ∉ cellsOf steps) :
    heapAfterRuns steps h qs a = h a := by
  induction qs generalizing h with
  | nil => rfl
  | cons q qs ih =>
    simp only [heapAfterRuns]
    rw [ih _, runSteps_frame steps h q a ha]

/-- C7: for all step arguments `f` and `g` and scratch allocation states,
`NewMapFilterer(NewMapFilterer(f), g)` and `NewMapFilterer(f, g)` build
the same flattened ordered step-specification sequence, hence the same
size, and their `MapFilter` has the same input/output behaviour: on every
heap and input pointer the pointed-to result value (or drop verdict) is
the same. -/
theorem newMapFilterer_flatten (f g : MFArg V) (n0 n1 n2 : Nat) :
    specOf (newMapFilterer [.amf (newMapFilterer [f] n0).1, g] n1).1
      = specOf (newMapFilterer [f, g] n2).1 ∧
    (newMapFilterer [.amf (newMapFilterer [f] n0).1, g] n1).1.length
      = (newMapFilterer [f, g] n2).1.length ∧
    ∀ (h : Heap V) (ptr : Nat),
      resultValue (newMapFilterer [.amf (newMapFilterer [f] n0).1, g] n1).1 h ptr
        = resultValue (newMapFilterer [f, g] n2).1 h ptr := by
  have hspec : specOf (newMapFilterer [.amf (newMapFilterer [f] n0).1, g] n1).1
      = specOf (newMapFilterer [f, g] n2).1 := by
    rw [specOf_newMapFilterer, specOf_newMapFilterer]
    show argsSpec [.amf (newMapFilterer [f] n0).1, g] = argsSpec [f, g]
    have h1 : argsSpec [MFArg.amf (newMapFilterer [f] n0).1, g]
        = specOf (newMapFilterer [f] n0).1 ++ argsSpec [g] := by
      simp [argsSpec]
    rw [h1, specOf_newMapFilterer]
    show argsSpec [f] ++ argsSpec [g] = argsSpec [f, g]
    cases f <;> cases g <;> simp [argsSpec]
  refine ⟨hspec, ?_, ?_⟩
  · have := congrArg List.length hspec
    rwa [specOf_length, specOf_length] at this
  · intro h ptr
    rw [resultValue_denote, resultValue_denote, hspec]

/-- C2: two `MapFilterer` chains built independently by two
`NewMapFilterer` calls from the same step arguments own disjoint scratch
cells, so applying the first chain — any number of times, on any input
pointers `qs` — leaves every scratch cell of the second chain unchanged,
and leaves both the pointer the second chain's `MapFilter` returns and
the mapped value behind that pointer unchanged, for every input pointer
`p` allocated before both chains (`p < n0`). -/
theorem mapFilterer_clone_independence (args : List (MFArg V)) (n0 : Nat)
    (h : Heap V) (qs : List Nat) (p : Nat) (hp : p < n0) :
    (∀ a ∈ cellsOf (newMapFilterer args (newMapFilterer args n0).2).1,
       heapAfterRuns (newMapFilterer args n0).1 h qs a = h a) ∧
    (runSteps (newMapFilterer args (newMapFilterer args n0).2).1
       (heapAfterRuns (newMapFilterer args n0).1 h qs) p).1
      = (runSteps (newMapFilterer args (newMapFilterer args n0).2).1 h p).1 ∧
    resultValue (newMapFilterer args (newMapFilterer args n0).2).1
       (heapAfterRuns (newMapFilterer args n0).1 h qs) p
      = resultValue (newMapFilterer args (newMapFilterer args n0).2).1 h p := by
  have hc1 : ∀ a ∈ cellsOf (newMapFilterer args n0).1,
      n0 ≤ a ∧ a < (newMapFilterer args n0).2 := newMapFilterer_cells args n0
  have hc2 : ∀ a ∈ cellsOf (newMapFilterer args (newMapFilterer args n0).2).1,
      (newMapFilterer args n0).2 ≤ a := by
    intro a ha
    exact (newMapFilterer_cells args (newMapFilterer args n0).2 a ha).1
  have hframe : ∀ a, a ∉ cellsOf (newMapFilterer args n0).1 →
      heapAfterRuns (newMapFilterer args n0).1 h qs a = h a := by
    intro a ha
    exact heapAfterRuns_frame _ h qs a ha
  have hpnot : p ∉ cellsOf (newMapFilterer args n0).1 := by
    intro hmem
    have := hc1 p hmem
    omega
  have hpv : heapAfterRuns (newMapFilterer args n0).1 h qs p = h p :=
    hframe p hpnot
  refine ⟨?_, ?_, ?_⟩
  · intro a ha
    refine hframe a ?_
    intro hmem
    have h1 := hc1 a hmem
    have h2 := hc2 a ha
    omega
  · exact runSteps_ptr_congr _ p hpv
  · rw [resultValue_denote, resultValue_denote, hpv]

/-- Witness for C2: one mapper argument, chains allocated from counter 1,
one interleaved application of the first chain at pointer 0, observation
at pointer 0. -/
theorem mapFilterer_clone_independence_witness :
    (0 : Nat) < 1 ∧
    ((∀ a ∈ cellsOf (newMapFilterer [MFArg.amapr (fun v : Nat => (true, v + 1))]
          (newMapFilterer [MFArg.amapr (fun v : Nat => (true, v + 1))] 1).2).1,
        heapAfterRuns (newMapFilterer
          [MFArg.amapr (fun v : Nat => (true, v + 1))] 1).1 (fun _ => 0) [0] a
          = (fun _ => (0 : Nat)) a) ∧
     (runSteps (newMapFilterer [MFArg.amapr (fun v : Nat => (true, v + 1))]
          (newMapFilterer [MFArg.amapr (fun v : Nat => (true, v + 1))] 1).2).1
        (heapAfterRuns (newMapFilterer
          [MFArg.amapr (fun v : Nat => (true, v + 1))] 1).1 (fun _ => 0) [0]) 0).1
       = (runSteps (newMapFilterer [MFArg.amapr (fun v : Nat => (true, v + 1))]
          (newMapFilterer [MFArg.amapr (fun v : Nat => (true, v + 1))] 1).2).1
          (fun _ => 0) 0).1 ∧
     resultValue (newMapFilterer [MFArg.amapr (fun v : Nat => (true, v + 1))]
          (newMapFilterer [MFArg.amapr (fun v : Nat => (true, v + 1))] 1).2).1
        (heapAfterRuns (newMapFilterer
          [MFArg.amapr (fun v : Nat => (true, v + 1))] 1).1 (fun _ => 0) [0]) 0
       = resultValue (newMapFilterer [MFArg.amapr (fun v : Nat => (true, v + 1))]
          (newMapFilterer [MFArg.amapr (fun v : Nat => (true, v + 1))] 1).2).1
          (fun _ => 0) 0) :=
  ⟨by decide,
   mapFilterer_clone_independence [MFArg.amapr (fun v : Nat => (true, v + 1))]
     1 (fun _ => 0) [0] 0 (by decide)⟩

theorem canAny_filter (l : List (ConsumerState α)) :
    canAny (l.filter canConsume) = canAny l := by
  induction l with
  | nil => rfl
  | cons c cs ih =>
    by_cases h : canConsume c
    · simp [List.filter_cons, h, canAny, ih]
    · simp only [List.filter_cons, Bool.not_eq_true] at *
      simp [h, canAny, ih]

mutual
theorem check_can (s : ConsumerState α) :
    canConsume (check s) = canConsume s := by
  cases s with
  | multi cs =>
    simp only [check, canConsume, canAny_filter]
    exact checkList_can cs
  | sliceC inner s e i => simp only [check, canConsume, check_can inner]
  | mapFilterC inner f => exact check_can inner
  | takeWhileC inner f d => simp only [check, canConsume, check_can inner]
  | nil => rfl
  | cfunc => rfl
  | append buf => rfl
  | appendSave a => rfl
  | pageC a b c d e f g => rfl
theorem checkList_can (cs : List (ConsumerState α)) :
    canAny (checkList cs) = canAny cs := by
  cases cs with
  | nil => rfl
  | cons c cs => simp only [checkList, canAny, check_can c, checkList_can cs]
end

theorem consume_dead [Inhabited α] {s : ConsumerState α}
    (h : canConsume s = false) (v : α) : consume s v = none := by
  cases s with
  | nil => rfl
  | cfunc => simp [canConsume] at h
  | append buf => simp [canConsume] at h
  | appendSave a =>
    simp only [canConsume, Bool.not_eq_false'] at h
    simp [consume, h]
  | multi cs =>
    simp only [canConsume] at h
    simp [consume, h]
  | sliceC inner s e i =>
    simp only [canConsume] at h
    simp [consume, h]
  | mapFilterC inner f =>
    simp only [canConsume] at h
    simp [consume, h]
  | takeWhileC inner f d =>
    simp only [canConsume] at h
    simp [consume, h]
  | pageC a size s e i more fin =>
    simp only [canConsume] at h
    simp [consume, h]

theorem finalize_dead_stays_dead [Inhabited α] {s : ConsumerState α}
    (h : canConsume s = false) : canConsume (finalizeState s) = false := by
  cases s with
  | nil => exact h
  | cfunc => exact h
  | append buf => exact h
  | appendSave a =>
    simp only [canConsume, Bool.not_eq_false'] at h
    simp [finalizeState, AppendSaveMemoryConsumer.finalize, h, canConsume]
  | multi cs => exact h
  | sliceC inner s e i => exact h
  | mapFilterC inner f => exact h
  | takeWhileC inner f d => exact h
  | pageC a size s e i more fin =>
    by_cases hf : fin
    · simp [finalizeState, hf, canConsume]
    · simp only [finalizeState, if_neg hf]
      by_cases hb : (a.finalize).buffer.len = size + 1 <;>
        simp [hb, canConsume]

/-- C8: monotonic exhaustion.  For every consumer this package constructs
(every `ConsumerState`), once `CanConsume` is false it remains false
under every further sequence of operations — consuming (which then
panics without mutating), finalizing, and `CanConsume`'s own internal
pruning. -/
theorem canConsume_monotone [Inhabited α] (s : ConsumerState α)
    (ops : List (ConsumerOp α)) (h : canConsume s = false) :
    canConsume (ops.foldl applyOp s) = false := by
  induction ops generalizing s with
  | nil => exact h
  | cons op ops ih =>
    simp only [List.foldl_cons]
    apply ih
    cases op with
    | consumeOp v =>
      simp only [applyOp, consume_dead h v, Option.getD_none]
      exact h
    | finalizeOp => exact finalize_dead_stays_dead h
    | checkOp =>
      show canConsume (check s) = false
      rw [check_can]
      exact h

/-- Witness for C8: a finalized `AppendToSaveMemory` consumer stays
unable to consume across a consume, a finalize and a `CanConsume` call. -/
theorem canConsume_monotone_witness :
    canConsume (ConsumerState.appendSave
      (⟨⟨[], 0⟩, 0, true⟩ : AppendSaveMemoryConsumer Nat)) = false ∧
    canConsume (([ConsumerOp.consumeOp 3, ConsumerOp.finalizeOp,
        ConsumerOp.checkOp]).foldl applyOp
      (ConsumerState.appendSave
        (⟨⟨[], 0⟩, 0, true⟩ : AppendSaveMemoryConsumer Nat))) = false :=
  ⟨by rfl,
   canConsume_monotone
     (ConsumerState.appendSave (⟨⟨[], 0⟩, 0, true⟩ : AppendSaveMemoryConsumer Nat))
     [ConsumerOp.consumeOp 3, ConsumerOp.finalizeOp, ConsumerOp.checkOp]
     (by rfl)⟩

theorem newMapFilterer_len_zero (args : List (MFArg V)) (n : Nat)
    (h : ∀ a ∈ args, mfSize a = 0) :
    (newMapFilterer args n).1.length = 0 := by
  induction args generalizing n with
  | nil => rfl
  | cons a rest ih =>
    have ha : mfSize a = 0 := h a (by simp)
    have hrest : ∀ b ∈ rest, mfSize b = 0 := fun b hb => h b (by simp [hb])
    cases a with
    | afilt p => simp [mfSize] at ha
    | amapr f => simp [mfSize] at ha
    | amf steps =>
      simp only [mfSize] at ha
      rw [List.length_eq_zero] at ha
      subst ha
      simp only [newMapFilterer, mfAddClones, cloneSteps, List.length_append,
        List.length_nil, Nat.zero_add]
      exact ih n hrest

/-- C10: when the arguments passed to `TakeWhile` (resp. `MapFilter`)
contribute zero effective steps — no arguments, or only `MapFilterer`s of
size 0 — the returned consumer is the inner consumer itself (no wrapper);
in particular such a `TakeWhile` has no `done` flag, can never terminate
early on its own, and its `CanConsume` is exactly the inner
consumer's. -/
theorem takeWhile_mapFilter_zero_steps [Inhabited α] (c : ConsumerState α)
    (args : List (MFArg α)) (n : Nat) (h : ∀ a ∈ args, mfSize a = 0) :
    takeWhileConsumerOf c args n = c ∧
    mapFilterConsumerOf c args n = c ∧
    canConsume (takeWhileConsumerOf c args n) = canConsume c := by
  have hlen := newMapFilterer_len_zero args n h
  unfold takeWhileConsumerOf mapFilterConsumerOf
  simp [if_pos hlen]

/-- Witness for C10: `TakeWhile`/`MapFilter` over a `Nil` consumer with a
single size-0 `MapFilterer` argument. -/
theorem takeWhile_mapFilter_zero_steps_witness :
    (∀ a ∈ [MFArg.amf ([] : List (MFStep Nat))], mfSize a = 0) ∧
    (takeWhileConsumerOf ConsumerState.nil [MFArg.amf ([] : List (MFStep Nat))] 0
       = ConsumerState.nil ∧
     mapFilterConsumerOf ConsumerState.nil [MFArg.amf ([] : List (MFStep Nat))] 0
       = ConsumerState.nil ∧
     canConsume (takeWhileConsumerOf ConsumerState.nil
        [MFArg.amf ([] : List (MFStep Nat))] 0)
       = canConsume (ConsumerState.nil : ConsumerState Nat)) :=
  ⟨by simp [mfSize],
   takeWhile_mapFilter_zero_steps ConsumerState.nil
     [MFArg.amf ([] : List (MFStep Nat))] 0 (by simp [mfSize])⟩


end Consume
